import Mathlib

/-!
Verification of `src/5_challenge/find_longest_common_substring.py`.

Sequences are modelled as `List Char` (Python strings), a Python exception
as `Except`/`Option`.  The GC-content computation runs on IEEE-754 binary64
floats in Python; it is modelled over `ℚ` by composing the exact operations
with `roundB64`, correct rounding to the binary64 grid with ties to even.  The longest-common-substring routine is embedded by the
value of the dynamic-programming table (`matrixVal`) together with a left
fold over the loop's cells in iteration order (`update`, `lcsLoop`).
-/

/-- Python's slice `s[a:b]` for `0 ≤ a ≤ b`: the elements at indices
`a, …, b-1`. -/
def pySlice (s : List Char) (a b : Nat) : List Char :=
  (s.take b).drop a

/-- The value stored in `matrix[i][j]` by `longest_common_substring`:
`matrix[i][j] = matrix[i-1][j-1] + 1` when `seq1[i-1] == seq2[j-1]`, else the
initial `0`.  (It is the length of the longest common suffix of `seq1[:i]`
and `seq2[:j]`.)  The loop only reads entries with `i ≤ len seq1`,
`j ≤ len seq2`, so the `getD` default is never consulted. -/
def matrixVal (s1 s2 : List Char) : Nat → Nat → Nat
  | 0, _ => 0
  | _ + 1, 0 => 0
  | i + 1, j + 1 =>
    if s1.getD i 'A' = s2.getD j 'A' then matrixVal s1 s2 i j + 1 else 0

/-- One iteration of the inner loop body at cell `c = (i, j)` acting on the
state `(longest, end_pos)`: when `seq1[i-1] == seq2[j-1]`, compare the fresh
table entry `matrix[i][j]` with `longest` and record `(matrix[i][j], i)` on a
strict improvement. -/
def update (s1 s2 : List Char) (st : Nat × Nat) (c : Nat × Nat) : Nat × Nat :=
  if s1.getD (c.1 - 1) 'A' = s2.getD (c.2 - 1) 'A' then
    if matrixVal s1 s2 c.1 c.2 > st.1 then (matrixVal s1 s2 c.1 c.2, c.1) else st
  else st

/-- The loop's cells `(i, j)`, `i ∈ 1..m`, `j ∈ 1..n`, in iteration order
(`i` outer, `j` inner). -/
def cells (m n : Nat) : List (Nat × Nat) :=
  (List.range m).flatMap (fun i => (List.range n).map (fun j => (i + 1, j + 1)))

/-- The final `(longest, end_pos)` state of the two nested loops of
`longest_common_substring`, starting from `(0, 0)`. -/
def lcsLoop (s1 s2 : List Char) : Nat × Nat :=
  (cells s1.length s2.length).foldl (update s1 s2) (0, 0)

/-- `longest_common_substring(seq1, seq2)`: run the loops, then return
`seq1[end_pos - longest : end_pos]`. -/
def longest_common_substring (s1 s2 : List Char) : List Char :=
  pySlice s1 ((lcsLoop s1 s2).2 - (lcsLoop s1 s2).1) (lcsLoop s1 s2).2

/-- The contiguous segment of `s` of length `k` ending at position `e`
(read: `s[e-k:e]`).  `longest_common_substring` returns
`segAt s1 end_pos longest`. -/
def segAt (s : List Char) (e k : Nat) : List Char :=
  (s.take e).drop (e - k)

/-- `t` occurs in `s` as a contiguous substring ending at position `e`. -/
def EndsAt (t s : List Char) (e : Nat) : Prop :=
  t.length ≤ e ∧ e ≤ s.length ∧ segAt s e t.length = t

instance (t s : List Char) (e : Nat) : Decidable (EndsAt t s e) :=
  inferInstanceAs (Decidable (_ ∧ _ ∧ _))

/-- Round half to even (Python's `round` tie-breaking rule) to an integer. -/
def roundHalfEven (x : ℚ) : ℤ :=
  if x - ⌊x⌋ < 1 / 2 then ⌊x⌋
  else if 1 / 2 < x - ⌊x⌋ then ⌊x⌋ + 1
  else if ⌊x⌋ % 2 = 0 then ⌊x⌋ else ⌊x⌋ + 1

/-- Python's `round(x, 1)`: round to one decimal place, halves to even. -/
def round1 (x : ℚ) : ℚ :=
  (roundHalfEven (x * 10) : ℚ) / 10

/-- `gc_count = sum(1 for base in sequence if base in "GC")`. -/
def gc_count (s : List Char) : Nat :=
  s.countP (fun base => base == 'G' || base == 'C')

/-- Round a real value to the nearest IEEE-754 binary64 floating-point
number, ties to even: the nearest number of the form `n * 2 ^ e`, where the
grid exponent `e` is chosen so that `|x| / 2 ^ e` lands in `[2^52, 2^53)`
for normal magnitudes and is clamped at `-1074` below the normal range
(subnormal grid).  Overflow cannot occur for the values reached in this
file (they all lie in `[0, 100]`). -/
def roundB64 (x : ℚ) : ℚ :=
  if x = 0 then 0
  else
    (roundHalfEven (x / 2 ^ max (Int.log 2 |x| - 52) (-1074)) : ℚ)
      * 2 ^ max (Int.log 2 |x| - 52) (-1074)

/-- CPython's true division `int / int`: the exact quotient, correctly
rounded to binary64. -/
def fdivB64 (a b : ℕ) : ℚ :=
  roundB64 ((a : ℚ) / (b : ℚ))

/-- IEEE-754 binary64 multiplication: the exact product of the operands,
correctly rounded. -/
def fmulB64 (x y : ℚ) : ℚ :=
  roundB64 (x * y)

/-- CPython's `round(x, 1)` on a binary64 value: the exact (rational) value
of the double is correctly rounded to one decimal digit with ties to even
(`round1`; an exact decimal tie is impossible for a binary64 input), and
the resulting decimal is read back as the nearest double. -/
def pyRound1 (x : ℚ) : ℚ :=
  roundB64 (round1 x)

/-- `gc_content(sequence)` with Python's binary64 float semantics:
`round((gc_count / len(sequence)) * 100, 1)`, where the division, the
multiplication by `100` and `round(·, 1)` are the correctly rounded
floating-point operations CPython performs.  Python's `ZeroDivisionError`
on an empty sequence is modelled by `none`. -/
def gc_content (s : List Char) : Option ℚ :=
  if s.length = 0 then none
  else some (pyRound1 (fmulB64 (fdivB64 (gc_count s) s.length) 100))

/-- Python's whitespace test (`str.isspace()`), as used by `str.strip()`
and no-argument `str.split()`: the ASCII whitespace and separator controls
together with the Unicode space separators. -/
def isPySpace (c : Char) : Bool :=
  c == ' ' || c == '\t' || c == '\n' || c == '\x0b' || c == '\x0c' || c == '\r' ||
  c == '\x1c' || c == '\x1d' || c == '\x1e' || c == '\x1f' || c == '\x85' ||
  c == '\xa0' || c == '\u1680' || ('\u2000' <= c && c <= '\u200a') ||
  c == '\u2028' || c == '\u2029' || c == '\u202f' || c == '\u205f' || c == '\u3000'

/-- `line.strip().split()`: the maximal whitespace-free tokens of a line
(leading and trailing whitespace is ignored by `split()`, so the `strip()`
is absorbed). -/
def tokens (line : List Char) : List (List Char) :=
  (line.splitOnP isPySpace).filter (fun t => !t.isEmpty)

/-- The values formatted into the five lines of the output file by
`process_sequences`. -/
structure OutputReport where
  seq1_len : Nat
  seq2_len : Nat
  seq1_gc : ℚ
  seq2_gc : ℚ
  common : List Char
deriving DecidableEq

/-- `process_sequences(input_file, output_file)`, taking the input file's
lines as its argument.  Raising an exception is modelled by `Except.error`
(carrying the Python message, or the error class name for errors raised
inside library calls), and writing the output file by returning `Except.ok`
with the values that are formatted into the five output lines; on an error
path no `Except.ok` is produced, i.e. nothing is written. -/
def process_sequences (lines : List (List Char)) : Except String OutputReport :=
  if lines.length ≠ 2 then Except.error "Input file must contain exactly two lines."
  else
    match (tokens (lines.getD 0 [])).get? 1, (tokens (lines.getD 1 [])).get? 1 with
    | some seq1, some seq2 =>
      match gc_content seq1, gc_content seq2 with
      | some g1, some g2 =>
        Except.ok ⟨seq1.length, seq2.length, g1, g2, longest_common_substring seq1 seq2⟩
      | _, _ => Except.error "ZeroDivisionError"
    | _, _ => Except.error "IndexError"

/-! ### Basic facts about the table entries and segments -/

lemma matrixVal_le (s1 s2 : List Char) :
    ∀ i j, matrixVal s1 s2 i j ≤ i ∧ matrixVal s1 s2 i j ≤ j := by
  intro i
  induction i with
  | zero => intro j; simp [matrixVal]
  | succ i ih =>
    intro j
    cases j with
    | zero => simp [matrixVal]
    | succ j =>
      have h := ih j
      unfold matrixVal
      split
      · omega
      · omega

lemma segAt_zero (s : List Char) (e : Nat) : segAt s e 0 = [] := by
  apply List.drop_eq_nil_of_le
  simp [List.length_take]

lemma segAt_length (s : List Char) {e k : Nat} (hk : k ≤ e) (he : e ≤ s.length) :
    (segAt s e k).length = k := by
  unfold segAt
  rw [List.length_drop, List.length_take]
  omega

lemma segAt_succ (s : List Char) {e k : Nat} (hk : k ≤ e) (he : e < s.length) :
    segAt s (e + 1) (k + 1) = segAt s e k ++ [s.getD e 'A'] := by
  unfold segAt
  have h1 : s.take (e + 1) = s.take e ++ [s.getD e 'A'] := by
    rw [← List.take_concat_get s e he, List.concat_eq_append]
    congr 2
    exact (List.getD_eq_getElem s 'A' he).symm
  rw [h1]
  have h2 : e + 1 - (k + 1) = e - k := by omega
  rw [h2, List.drop_append_of_le_length]
  rw [List.length_take]
  omega

lemma segAt_isSub (s : List Char) (e k : Nat) : segAt s e k <:+: s := by
  refine ⟨(s.take e).take (e - k), s.drop e, ?_⟩
  unfold segAt
  rw [List.take_append_drop, List.take_append_drop]

lemma segAt_of_append (p t q : List Char) :
    segAt (p ++ t ++ q) (p.length + t.length) t.length = t := by
  unfold segAt
  have h1 : (p ++ t ++ q).take (p.length + t.length) = p ++ t := by
    have := List.take_left (p ++ t) q
    simpa [List.length_append] using this
  rw [h1]
  have h2 : p.length + t.length - t.length = p.length := by omega
  rw [h2, List.drop_left]

lemma endsAt_of_isSub {t s : List Char} (h : t <:+: s) : ∃ e, EndsAt t s e := by
  obtain ⟨p, q, rfl⟩ := h
  refine ⟨p.length + t.length, ?_, ?_, ?_⟩
  · omega
  · simp [List.length_append]
  · exact segAt_of_append p t q

/-- Soundness of the table: the entry `matrix[i][j]` measures a common
suffix, i.e. the last `matrix[i][j]` symbols of `seq1[:i]` and of `seq2[:j]`
coincide. -/
lemma segAt_matrixVal_eq (s1 s2 : List Char) :
    ∀ i j, i ≤ s1.length → j ≤ s2.length →
      segAt s1 i (matrixVal s1 s2 i j) = segAt s2 j (matrixVal s1 s2 i j) := by
  intro i
  induction i with
  | zero =>
    intro j _ _
    show segAt s1 0 (matrixVal s1 s2 0 j) = _
    have h0 : matrixVal s1 s2 0 j = 0 := by cases j <;> rfl
    rw [h0, segAt_zero, segAt_zero]
  | succ i ih =>
    intro j hi hj
    cases j with
    | zero => rw [show matrixVal s1 s2 (i + 1) 0 = 0 from rfl, segAt_zero, segAt_zero]
    | succ j =>
      by_cases hc : s1.getD i 'A' = s2.getD j 'A'
      · have hm : matrixVal s1 s2 (i + 1) (j + 1) = matrixVal s1 s2 i j + 1 := by
          rw [matrixVal, if_pos hc]
        have hb := matrixVal_le s1 s2 i j
        rw [hm, segAt_succ s1 hb.1 (by omega), segAt_succ s2 hb.2 (by omega),
          ih j (by omega) (by omega), hc]
      · have hm : matrixVal s1 s2 (i + 1) (j + 1) = 0 := by
          rw [matrixVal, if_neg hc]
        rw [hm, segAt_zero, segAt_zero]

/-- Completeness of the table: a common segment of length `k` ending at `i`
in `seq1` and at `j` in `seq2` forces `matrix[i][j] ≥ k`. -/
lemma le_matrixVal_of_segAt_eq (s1 s2 : List Char) :
    ∀ k i j, k ≤ i → k ≤ j → i ≤ s1.length → j ≤ s2.length →
      segAt s1 i k = segAt s2 j k → k ≤ matrixVal s1 s2 i j := by
  intro k
  induction k with
  | zero => intro i j _ _ _ _ _; exact Nat.zero_le _
  | succ k ih =>
    intro i j hki hkj hi hj hseg
    cases i with
    | zero => omega
    | succ i =>
      cases j with
      | zero => omega
      | succ j =>
        rw [segAt_succ s1 (by omega) (by omega), segAt_succ s2 (by omega) (by omega)]
          at hseg
        obtain ⟨hseg', hch⟩ := List.append_inj' hseg rfl
        have hc : s1.getD i 'A' = s2.getD j 'A' := by
          injection hch with h _
        have hm : matrixVal s1 s2 (i + 1) (j + 1) = matrixVal s1 s2 i j + 1 := by
          rw [matrixVal, if_pos hc]
        have := ih i j (by omega) (by omega) (by omega) (by omega) hseg'
        omega

/-! ### The loop cells and single update steps -/

lemma mem_cells {m n : Nat} {c : Nat × Nat} :
    c ∈ cells m n ↔ 1 ≤ c.1 ∧ c.1 ≤ m ∧ 1 ≤ c.2 ∧ c.2 ≤ n := by
  obtain ⟨i, j⟩ := c
  simp only [cells, List.mem_flatMap, List.mem_map, List.mem_range, Prod.mk.injEq]
  constructor
  · rintro ⟨a, ha, b, hb, rfl, rfl⟩
    omega
  · rintro ⟨h1, h2, h3, h4⟩
    exact ⟨i - 1, by omega, j - 1, by omega, by omega, by omega⟩

lemma cells_pairwise (m n : Nat) : (cells m n).Pairwise (fun a b => a.1 ≤ b.1) := by
  induction m with
  | zero => simp [cells]
  | succ m ih =>
    rw [cells, List.range_succ, List.flatMap_append]
    rw [List.pairwise_append]
    refine ⟨ih, ?_, ?_⟩
    · simp only [List.flatMap_cons, List.flatMap_nil, List.append_nil]
      rw [List.pairwise_map]
      exact List.Pairwise.imp (fun _ => Nat.le_refl _) (List.pairwise_lt_range n)
    · intro a ha b hb
      have h1 := mem_cells.mp ha
      simp only [List.flatMap_cons, List.flatMap_nil, List.append_nil, List.mem_map,
        List.mem_range] at hb
      obtain ⟨b', _, rfl⟩ := hb
      simpa using by omega

lemma update_of_le (s1 s2 : List Char) {st c : Nat × Nat}
    (h : matrixVal s1 s2 c.1 c.2 ≤ st.1) : update s1 s2 st c = st := by
  unfold update
  split
  · split
    next hgt => exact absurd hgt (Nat.not_lt.mpr h)
    next => rfl
  · rfl

lemma update_of_lt (s1 s2 : List Char) {st c : Nat × Nat}
    (h : st.1 < matrixVal s1 s2 c.1 c.2) :
    update s1 s2 st c = (matrixVal s1 s2 c.1 c.2, c.1) := by
  obtain ⟨i, j⟩ := c
  cases i with
  | zero =>
    have h0 : matrixVal s1 s2 0 j = 0 := by cases j <;> rfl
    rw [show ((0 : Nat), j).1 = 0 from rfl, h0] at h
    omega
  | succ i =>
    cases j with
    | zero =>
      rw [show matrixVal s1 s2 (i + 1, (0 : Nat)).1 (i + 1, (0 : Nat)).2 = 0 from rfl] at h
      omega
    | succ j =>
      have hc : s1.getD i 'A' = s2.getD j 'A' := by
        by_contra hc
        rw [show matrixVal s1 s2 (i + 1, j + 1).1 (i + 1, j + 1).2
            = matrixVal s1 s2 (i + 1) (j + 1) from rfl, matrixVal, if_neg hc] at h
        omega
      unfold update
      dsimp only
      rw [Nat.add_sub_cancel, Nat.add_sub_cancel, if_pos hc, if_pos h]

lemma update_fst_le (s1 s2 : List Char) (st c : Nat × Nat) :
    st.1 ≤ (update s1 s2 st c).1 := by
  rcases le_or_lt (matrixVal s1 s2 c.1 c.2) st.1 with h | h
  · rw [update_of_le s1 s2 h]
  · rw [update_of_lt s1 s2 h]
    exact Nat.le_of_lt h

lemma update_cases (s1 s2 : List Char) (st c : Nat × Nat) :
    update s1 s2 st c = st ∨
      (update s1 s2 st c = (matrixVal s1 s2 c.1 c.2, c.1) ∧
        st.1 < matrixVal s1 s2 c.1 c.2) := by
  rcases le_or_lt (matrixVal s1 s2 c.1 c.2) st.1 with h | h
  · exact Or.inl (update_of_le s1 s2 h)
  · exact Or.inr ⟨update_of_lt s1 s2 h, h⟩

/-! ### Invariants of the fold over the cells -/

lemma foldl_fst_le (s1 s2 : List Char) :
    ∀ (l : List (Nat × Nat)) (st : Nat × Nat),
      st.1 ≤ (l.foldl (update s1 s2) st).1 := by
  intro l
  induction l with
  | nil => intro st; exact Nat.le_refl _
  | cons hd tl ih =>
    intro st
    exact Nat.le_trans (update_fst_le s1 s2 st hd) (ih (update s1 s2 st hd))

/-- `longest` is only ever overwritten by a table value, so the final
`(longest, end_pos)` is either still the initial state or was recorded at
some cell, on a strict improvement. -/
lemma foldl_attained (s1 s2 : List Char) :
    ∀ (l : List (Nat × Nat)) (st : Nat × Nat),
      l.foldl (update s1 s2) st = st ∨
        ∃ c ∈ l, matrixVal s1 s2 c.1 c.2 = (l.foldl (update s1 s2) st).1 ∧
          (l.foldl (update s1 s2) st).2 = c.1 ∧ st.1 < (l.foldl (update s1 s2) st).1 := by
  intro l
  induction l with
  | nil => intro st; exact Or.inl rfl
  | cons hd tl ih =>
    intro st
    have hfold : (hd :: tl).foldl (update s1 s2) st
        = tl.foldl (update s1 s2) (update s1 s2 st hd) := rfl
    rcases update_cases s1 s2 st hd with h | ⟨h, hlt⟩
    · rw [hfold, h]
      rcases ih st with h2 | ⟨c, hc, h2, h3, h4⟩
      · exact Or.inl h2
      · exact Or.inr ⟨c, List.mem_cons_of_mem _ hc, h2, h3, h4⟩
    · rw [hfold, h]
      right
      rcases ih (matrixVal s1 s2 hd.1 hd.2, hd.1) with h2 | ⟨c, hc, h2, h3, h4⟩
      · rw [h2]
        exact ⟨hd, List.mem_cons_self _ _, rfl, rfl, hlt⟩
      · exact ⟨c, List.mem_cons_of_mem _ hc, h2, h3, Nat.lt_trans hlt h4⟩

/-- The final `longest` dominates every table entry of the processed cells. -/
lemma foldl_max (s1 s2 : List Char) :
    ∀ (l : List (Nat × Nat)) (st : Nat × Nat), ∀ c ∈ l,
      matrixVal s1 s2 c.1 c.2 ≤ (l.foldl (update s1 s2) st).1 := by
  intro l
  induction l with
  | nil => intro st c hc; cases hc
  | cons hd tl ih =>
    intro st c hc
    rcases List.mem_cons.mp hc with rfl | hc'
    · have h1 : matrixVal s1 s2 c.1 c.2 ≤ (update s1 s2 st c).1 := by
        rcases le_or_lt (matrixVal s1 s2 c.1 c.2) st.1 with h | h
        · rw [update_of_le s1 s2 h]; exact h
        · rw [update_of_lt s1 s2 h]
      exact Nat.le_trans h1 (foldl_fst_le s1 s2 tl _)
    · exact ih (update s1 s2 st hd) c hc'

/-- Tie-breaking: because `longest` is only overwritten on a strict `>`, the
recorded `end_pos` is bounded by the `i`-index of every cell achieving the
final maximum (the cells are traversed in order of nondecreasing `i`). -/
lemma foldl_tiebreak (s1 s2 : List Char) :
    ∀ (l : List (Nat × Nat)) (st : Nat × Nat),
      l.Pairwise (fun a b => a.1 ≤ b.1) →
      ∀ c ∈ l, st.1 < matrixVal s1 s2 c.1 c.2 →
        matrixVal s1 s2 c.1 c.2 = (l.foldl (update s1 s2) st).1 →
        (l.foldl (update s1 s2) st).2 ≤ c.1 := by
  intro l
  induction l with
  | nil => intro st _ c hc; cases hc
  | cons hd tl ih =>
    intro st hp c hc hlt heq
    have hfold : (hd :: tl).foldl (update s1 s2) st
        = tl.foldl (update s1 s2) (update s1 s2 st hd) := rfl
    rw [hfold] at heq ⊢
    rcases List.mem_cons.mp hc with rfl | hc'
    · have hupd : update s1 s2 st c = (matrixVal s1 s2 c.1 c.2, c.1) :=
        update_of_lt s1 s2 hlt
      rw [hupd] at heq ⊢
      rcases foldl_attained s1 s2 tl (matrixVal s1 s2 c.1 c.2, c.1) with h2 | ⟨c', _, _, _, h4⟩
      · rw [h2]
      · exact absurd heq (Nat.ne_of_lt h4)
    · rcases le_or_lt (matrixVal s1 s2 c.1 c.2) (update s1 s2 st hd).1 with hle | hlt2
      · have hfired : update s1 s2 st hd = (matrixVal s1 s2 hd.1 hd.2, hd.1) := by
          rcases update_cases s1 s2 st hd with h | ⟨h, _⟩
          · exfalso
            rw [h] at hle
            exact absurd hlt (Nat.not_lt.mpr hle)
          · exact h
        rcases foldl_attained s1 s2 tl (update s1 s2 st hd) with h2 | ⟨c', _, _, _, h4⟩
        · rw [h2, hfired]
          exact (List.pairwise_cons.mp hp).1 c hc'
        · exfalso
          have : (update s1 s2 st hd).1 < matrixVal s1 s2 c.1 c.2 := by rw [heq]; exact h4
          exact absurd hle (Nat.not_le.mpr this)
      · exact ih (update s1 s2 st hd) (List.pairwise_cons.mp hp).2 c hc' hlt2 heq

/-! ### Structural facts about `longest_common_substring` -/

lemma lcsLoop_cases (s1 s2 : List Char) :
    lcsLoop s1 s2 = (0, 0) ∨
      ∃ c ∈ cells s1.length s2.length,
        matrixVal s1 s2 c.1 c.2 = (lcsLoop s1 s2).1 ∧ (lcsLoop s1 s2).2 = c.1 ∧
          0 < (lcsLoop s1 s2).1 :=
  foldl_attained s1 s2 (cells s1.length s2.length) (0, 0)

/-- The returned string is a common contiguous substring of both inputs, and
its length is the final value of `longest`. -/
lemma lcs_sound (s1 s2 : List Char) :
    longest_common_substring s1 s2 <:+: s1 ∧ longest_common_substring s1 s2 <:+: s2 ∧
      (longest_common_substring s1 s2).length = (lcsLoop s1 s2).1 := by
  rcases lcsLoop_cases s1 s2 with h | ⟨c, hc, h1, h2, _⟩
  · have hres : longest_common_substring s1 s2 = [] := by
      rw [show longest_common_substring s1 s2
          = segAt s1 (lcsLoop s1 s2).2 (lcsLoop s1 s2).1 from rfl, h]
      exact segAt_zero s1 0
    rw [hres, h]
    exact ⟨⟨[], s1, by simp⟩, ⟨[], s2, by simp⟩, rfl⟩
  · obtain ⟨_, hcm2, _, hcm4⟩ := mem_cells.mp hc
    have hL1 : (lcsLoop s1 s2).1 ≤ c.1 := by
      rw [← h1]
      exact (matrixVal_le s1 s2 c.1 c.2).1
    have hres : longest_common_substring s1 s2 = segAt s1 c.1 (lcsLoop s1 s2).1 := by
      rw [show longest_common_substring s1 s2
          = segAt s1 (lcsLoop s1 s2).2 (lcsLoop s1 s2).1 from rfl, h2]
    have hseg : segAt s1 c.1 (lcsLoop s1 s2).1 = segAt s2 c.2 (lcsLoop s1 s2).1 := by
      rw [← h1]
      exact segAt_matrixVal_eq s1 s2 c.1 c.2 hcm2 hcm4
    refine ⟨?_, ?_, ?_⟩
    · rw [hres]
      exact segAt_isSub s1 c.1 _
    · rw [hres, hseg]
      exact segAt_isSub s2 c.2 _
    · rw [hres]
      exact segAt_length s1 hL1 hcm2

/-- Maximality: the final `longest` dominates the length of every common
contiguous substring. -/
lemma lcs_max (s1 s2 t : List Char) (ht1 : t <:+: s1) (ht2 : t <:+: s2) :
    t.length ≤ (lcsLoop s1 s2).1 := by
  obtain ⟨e, he1, he2, he3⟩ := endsAt_of_isSub ht1
  obtain ⟨j, hj1, hj2, hj3⟩ := endsAt_of_isSub ht2
  have hk : t.length ≤ matrixVal s1 s2 e j :=
    le_matrixVal_of_segAt_eq s1 s2 t.length e j he1 hj1 he2 hj2 (by rw [he3, hj3])
  rcases Nat.eq_zero_or_pos t.length with h0 | hpos
  · rw [h0]
    exact Nat.zero_le _
  · have hmem : (e, j) ∈ cells s1.length s2.length :=
      mem_cells.mpr ⟨by omega, he2, by omega, hj2⟩
    have hmax : matrixVal s1 s2 e j ≤ (lcsLoop s1 s2).1 :=
      foldl_max s1 s2 (cells s1.length s2.length) (0, 0) (e, j) hmem
    exact Nat.le_trans hk hmax

/-- The returned string ends at the recorded `end_pos` in `seq1`. -/
lemma lcs_endsAt (s1 s2 : List Char) :
    EndsAt (longest_common_substring s1 s2) s1 (lcsLoop s1 s2).2 := by
  have hlen := (lcs_sound s1 s2).2.2
  rcases lcsLoop_cases s1 s2 with h | ⟨c, hc, h1, h2, _⟩
  · rw [show longest_common_substring s1 s2
        = segAt s1 (lcsLoop s1 s2).2 (lcsLoop s1 s2).1 from rfl, h]
    exact ⟨by simp [segAt_zero], Nat.zero_le _, by simp [segAt_zero]⟩
  · obtain ⟨_, hcm2, _, _⟩ := mem_cells.mp hc
    have hL1 : (lcsLoop s1 s2).1 ≤ c.1 := by
      rw [← h1]
      exact (matrixVal_le s1 s2 c.1 c.2).1
    refine ⟨?_, ?_, ?_⟩
    · rw [hlen, h2]
      exact hL1
    · rw [h2]
      exact hcm2
    · rw [hlen]
      rfl

/-- Tie-breaking: the recorded `end_pos` is the earliest ending position in
`seq1` of any common substring at least as long as the returned one. -/
lemma lcs_endPos_min (s1 s2 t : List Char) (e : Nat)
    (h : EndsAt t s1 e) (h2 : t <:+: s2) (h3 : (lcsLoop s1 s2).1 ≤ t.length) :
    (lcsLoop s1 s2).2 ≤ e := by
  obtain ⟨he1, he2, he3⟩ := h
  obtain ⟨j, hj1, hj2, hj3⟩ := endsAt_of_isSub h2
  have hk : t.length ≤ matrixVal s1 s2 e j :=
    le_matrixVal_of_segAt_eq s1 s2 t.length e j he1 hj1 he2 hj2 (by rw [he3, hj3])
  rcases Nat.eq_zero_or_pos (lcsLoop s1 s2).1 with h0 | hpos
  · rcases lcsLoop_cases s1 s2 with hh | ⟨c, _, _, _, hgt⟩
    · rw [hh]
      exact Nat.zero_le _
    · omega
  · have hmem : (e, j) ∈ cells s1.length s2.length :=
      mem_cells.mpr ⟨by omega, he2, by omega, hj2⟩
    have hmax : matrixVal s1 s2 e j ≤ (lcsLoop s1 s2).1 :=
      foldl_max s1 s2 (cells s1.length s2.length) (0, 0) (e, j) hmem
    have heq : matrixVal s1 s2 e j = (lcsLoop s1 s2).1 := by omega
    have h0lt : (0 : Nat) < matrixVal s1 s2 e j := by omega
    have hfin : (lcsLoop s1 s2).2 ≤ e :=
      foldl_tiebreak s1 s2 (cells s1.length s2.length) (0, 0)
        (cells_pairwise _ _) (e, j) hmem h0lt heq
    exact hfin

/-- A contiguous substring at least as long as the ambient list is the list. -/
lemma isSub_eq_of_le_length {t s : List Char} (h : t <:+: s) (hl : s.length ≤ t.length) :
    t = s := by
  obtain ⟨p, q, rfl⟩ := h
  simp only [List.length_append] at hl
  obtain rfl : p = [] := List.length_eq_zero.mp (by omega)
  obtain rfl : q = [] := List.length_eq_zero.mp (by omega)
  simp

/-! ### Claim theorems for `longest_common_substring` -/

/-- C1: for every pair of sequences, the string returned by
`longest_common_substring` occurs as a contiguous substring of both inputs
(in particular whenever it is non-empty), and no contiguous substring `t`
common to both inputs is strictly longer than it. -/
theorem lcs_is_longest_common (s1 s2 t : List Char)
    (h1 : t <:+: s1) (h2 : t <:+: s2) :
    (longest_common_substring s1 s2 <:+: s1 ∧ longest_common_substring s1 s2 <:+: s2) ∧
      t.length ≤ (longest_common_substring s1 s2).length := by
  obtain ⟨hs1, hs2, hlen⟩ := lcs_sound s1 s2
  refine ⟨⟨hs1, hs2⟩, ?_⟩
  rw [hlen]
  exact lcs_max s1 s2 t h1 h2

/-- Witness for C1 at `seq1 = "ACG"`, `seq2 = "CGT"`, `t = "CG"`. -/
theorem lcs_is_longest_common_witness :
    (longest_common_substring "ACG".toList "CGT".toList <:+: "ACG".toList ∧
      longest_common_substring "ACG".toList "CGT".toList <:+: "CGT".toList) ∧
      ("CG".toList).length ≤ (longest_common_substring "ACG".toList "CGT".toList).length :=
  lcs_is_longest_common "ACG".toList "CGT".toList "CG".toList (by decide) (by decide)

/-- C2 counterexample: on `seq1 = "ACGTACGT"`, `seq2 = "TTACGTGG"` the code
does not return `"ACGT"`. -/
theorem lcs_example_ne_ACGT :
    longest_common_substring "ACGTACGT".toList "TTACGTGG".toList ≠ "ACGT".toList := by
  decide

/-- C2 amended: on `seq1 = "ACGTACGT"`, `seq2 = "TTACGTGG"` the code returns
`"TACGT"` (a common substring of length 5, strictly longer than `"ACGT"`). -/
theorem lcs_example_eq_TACGT :
    longest_common_substring "ACGTACGT".toList "TTACGTGG".toList = "TACGT".toList := by
  decide

/-- C3 counterexample: the returned string value is not symmetric in the
argument order: on `("AG", "GA")` the code returns `"A"`, on `("GA", "AG")`
it returns `"G"`. -/
theorem lcs_value_not_symmetric :
    longest_common_substring "AG".toList "GA".toList ≠
      longest_common_substring "GA".toList "AG".toList := by
  decide

/-- C3 amended: the length of the returned string is identical regardless of
argument order (the value itself may differ). -/
theorem lcs_length_symmetric (s1 s2 : List Char) :
    (longest_common_substring s1 s2).length = (longest_common_substring s2 s1).length := by
  obtain ⟨h11, h12, hl1⟩ := lcs_sound s1 s2
  obtain ⟨h21, h22, hl2⟩ := lcs_sound s2 s1
  have a1 : (longest_common_substring s2 s1).length ≤ (lcsLoop s1 s2).1 :=
    lcs_max s1 s2 _ h22 h21
  have a2 : (longest_common_substring s1 s2).length ≤ (lcsLoop s2 s1).1 :=
    lcs_max s2 s1 _ h12 h11
  omega

/-- C4: the returned string ends in `seq1` at the recorded `end_pos`, and
`end_pos` is at most the ending position of every occurrence in `seq1` of a
maximal-length common substring — the first occurrence of the maximum wins
ties, because the maximum is overwritten only on a strict increase. -/
theorem lcs_tiebreak_first_max (s1 s2 t : List Char) (e : Nat)
    (h1 : EndsAt t s1 e) (h2 : t <:+: s2)
    (h3 : t.length = (longest_common_substring s1 s2).length) :
    EndsAt (longest_common_substring s1 s2) s1 (lcsLoop s1 s2).2 ∧
      (lcsLoop s1 s2).2 ≤ e := by
  refine ⟨lcs_endsAt s1 s2, ?_⟩
  apply lcs_endPos_min s1 s2 t e h1 h2
  rw [h3, (lcs_sound s1 s2).2.2]

/-- Witness for C4 at `seq1 = "AGAG"`, `seq2 = "AG"`: the occurrence of
`"AG"` ending at position 4 of `seq1` does not displace the first one. -/
theorem lcs_tiebreak_first_max_witness :
    EndsAt (longest_common_substring "AGAG".toList "AG".toList) "AGAG".toList
        (lcsLoop "AGAG".toList "AG".toList).2 ∧
      (lcsLoop "AGAG".toList "AG".toList).2 ≤ 4 :=
  lcs_tiebreak_first_max "AGAG".toList "AG".toList "AG".toList 4
    (by decide) (by decide) (by decide)

/-- C8: every sequence is its own longest common substring with itself. -/
theorem lcs_self (s : List Char) : longest_common_substring s s = s := by
  obtain ⟨h1, _, hlen⟩ := lcs_sound s s
  apply isSub_eq_of_le_length h1
  rw [hlen]
  exact lcs_max s s s ⟨[], [], by simp⟩ ⟨[], [], by simp⟩

/-- C9: `longest_common_substring(s, "") == ""`, and more generally the
empty string is returned whenever the recorded maximum `longest` is 0. -/
theorem lcs_empty_right (s1 s2 : List Char) (h : (lcsLoop s1 s2).1 = 0) :
    longest_common_substring s1 [] = [] ∧ longest_common_substring s1 s2 = [] := by
  constructor
  · have hcells : cells s1.length ([] : List Char).length = [] := by
      rw [List.eq_nil_iff_forall_not_mem]
      intro c hc
      have := mem_cells.mp hc
      simp only [List.length_nil] at this
      omega
    have hloop : lcsLoop s1 [] = (0, 0) := by
      rw [lcsLoop, hcells]
      rfl
    rw [show longest_common_substring s1 []
        = segAt s1 (lcsLoop s1 []).2 (lcsLoop s1 []).1 from rfl, hloop]
    exact segAt_zero s1 0
  · have hlen := (lcs_sound s1 s2).2.2
    rw [h] at hlen
    exact List.length_eq_zero.mp hlen

/-- Witness for C9 at `s1 = "A"`, `s2 = "C"` (no common symbol, so the
recorded maximum is 0). -/
theorem lcs_empty_right_witness :
    longest_common_substring "A".toList [] = [] ∧
      longest_common_substring "A".toList "C".toList = [] :=
  lcs_empty_right "A".toList "C".toList (by decide)

/-- C10: with an empty first argument the loop body never executes and the
slice `seq1[0:0]` is empty. -/
theorem lcs_empty_left (s : List Char) : longest_common_substring [] s = [] := by
  have hcells : cells ([] : List Char).length s.length = [] := by
    rw [List.eq_nil_iff_forall_not_mem]
    intro c hc
    have := mem_cells.mp hc
    simp only [List.length_nil] at this
    omega
  have hloop : lcsLoop [] s = (0, 0) := by
    rw [lcsLoop, hcells]
    rfl
  rw [show longest_common_substring [] s
      = segAt [] (lcsLoop [] s).2 (lcsLoop [] s).1 from rfl, hloop]
  exact segAt_zero [] 0

/-! ### Rounding facts and the `gc_content` claims -/

lemma roundHalfEven_nonneg {x : ℚ} (h : 0 ≤ x) : 0 ≤ roundHalfEven x := by
  have hf : (0 : ℤ) ≤ ⌊x⌋ := Int.floor_nonneg.mpr h
  unfold roundHalfEven
  split
  · exact hf
  · split
    · omega
    · split
      · exact hf
      · omega

lemma roundHalfEven_le_int {x : ℚ} {B : ℤ} (h : x ≤ (B : ℚ)) : roundHalfEven x ≤ B := by
  have hfB : ⌊x⌋ ≤ B := by
    have h2 := Int.floor_le_floor h
    rwa [Int.floor_intCast] at h2
  unfold roundHalfEven
  split
  next => exact hfB
  next h1 =>
    have h2 : 1 / 2 ≤ x - ⌊x⌋ := le_of_not_lt h1
    have h3 : (⌊x⌋ : ℚ) < (B : ℚ) := by linarith [Int.floor_le x]
    have h4 : ⌊x⌋ < B := by exact_mod_cast h3
    split
    · omega
    · split
      · exact hfB
      · omega

lemma roundHalfEven_intCast (k : ℤ) : roundHalfEven (k : ℚ) = k := by
  unfold roundHalfEven
  rw [Int.floor_intCast, sub_self]
  norm_num

lemma round1_nonneg {x : ℚ} (h : 0 ≤ x) : 0 ≤ round1 x := by
  unfold round1
  apply div_nonneg _ (by norm_num)
  exact_mod_cast roundHalfEven_nonneg (by positivity)

lemma round1_le_100 {x : ℚ} (h : x ≤ 100) : round1 x ≤ 100 := by
  unfold round1
  rw [div_le_iff₀ (by norm_num : (0 : ℚ) < 10)]
  have h1 : x * 10 ≤ ((1000 : ℤ) : ℚ) := by push_cast; linarith
  have h2 := roundHalfEven_le_int h1
  calc ((roundHalfEven (x * 10) : ℤ) : ℚ) ≤ ((1000 : ℤ) : ℚ) := by exact_mod_cast h2
    _ = 100 * 10 := by norm_num

lemma round1_100 : round1 (100 : ℚ) = 100 := by
  have h : (100 : ℚ) * 10 = ((1000 : ℤ) : ℚ) := by norm_num
  rw [round1, h, roundHalfEven_intCast]
  norm_num

lemma round1_zero : round1 (0 : ℚ) = 0 := by
  have h : (0 : ℚ) * 10 = ((0 : ℤ) : ℚ) := by norm_num
  rw [round1, h, roundHalfEven_intCast]
  norm_num

/-! ### Facts about binary64 rounding -/

lemma roundB64_zero : roundB64 0 = 0 := by
  simp [roundB64]

lemma roundB64_nonneg {x : ℚ} (h : 0 ≤ x) : 0 ≤ roundB64 x := by
  rw [roundB64]
  split
  · exact le_refl 0
  · apply mul_nonneg
    · have h2 : (0 : ℚ) ≤ x / 2 ^ max (Int.log 2 |x| - 52) (-1074) :=
        div_nonneg h (le_of_lt (zpow_pos (by norm_num) _))
      exact_mod_cast roundHalfEven_nonneg h2
    · exact le_of_lt (zpow_pos (by norm_num) _)

/-- Rounding to the binary64 grid cannot overshoot a small representable
integer bound: if `0 ≤ x ≤ C ≤ 128` then `roundB64 x ≤ C`. -/
lemma roundB64_le_nat {x : ℚ} {C : ℕ} (h0 : 0 ≤ x) (hC : C ≤ 128) (hx : x ≤ (C : ℚ)) :
    roundB64 x ≤ (C : ℚ) := by
  rw [roundB64]
  split
  next => exact_mod_cast Nat.zero_le C
  next hx0 =>
    set e : ℤ := max (Int.log 2 |x| - 52) (-1074) with he
    have hxpos : 0 < x := lt_of_le_of_ne h0 (Ne.symm hx0)
    have habs : |x| = x := abs_of_pos hxpos
    have hxlt : x < ((2 : ℕ) : ℚ) ^ (8 : ℤ) := by
      calc x ≤ (C : ℚ) := hx
        _ ≤ 128 := by exact_mod_cast hC
        _ < ((2 : ℕ) : ℚ) ^ (8 : ℤ) := by norm_num
    have hlog : Int.log 2 |x| < 8 := by
      rw [habs]
      exact (Int.lt_zpow_iff_log_lt (by norm_num) hxpos).mp hxlt
    have he45 : e ≤ -45 := by
      rw [he]
      apply max_le (by omega) (by norm_num)
    have hepos : (0 : ℚ) < 2 ^ e := zpow_pos (by norm_num) e
    have hkey : (((C : ℤ) * 2 ^ (-e).toNat : ℤ) : ℚ) * 2 ^ e = (C : ℚ) := by
      push_cast
      rw [← zpow_natCast (2 : ℚ) (-e).toNat, Int.toNat_of_nonneg (by omega),
        mul_assoc, ← zpow_add₀ (by norm_num : (2 : ℚ) ≠ 0) (-e) e]
      simp
    have harg : x / 2 ^ e ≤ (((C : ℤ) * 2 ^ (-e).toNat : ℤ) : ℚ) := by
      rw [div_le_iff₀ hepos, hkey]
      exact hx
    have hrb := roundHalfEven_le_int harg
    calc (roundHalfEven (x / 2 ^ e) : ℚ) * 2 ^ e
        ≤ (((C : ℤ) * 2 ^ (-e).toNat : ℤ) : ℚ) * 2 ^ e := by
          apply mul_le_mul_of_nonneg_right _ (le_of_lt hepos)
          exact_mod_cast hrb
      _ = (C : ℚ) := hkey

/-- A value whose scaled form is an integer sits on the binary64 grid and
rounds to itself. -/
lemma roundB64_eq_self {x : ℚ} {n : ℤ} (hx : x ≠ 0)
    (hn : x / 2 ^ max (Int.log 2 |x| - 52) (-1074) = (n : ℚ)) : roundB64 x = x := by
  rw [roundB64, if_neg hx, hn, roundHalfEven_intCast, ← hn,
    div_mul_cancel₀ _ (zpow_ne_zero _ (by norm_num))]

lemma int_log_eq_of_zpow_le_of_lt {r : ℚ} {k : ℤ} (hr : 0 < r)
    (h1 : ((2 : ℕ) : ℚ) ^ k ≤ r) (h2 : r < ((2 : ℕ) : ℚ) ^ (k + 1)) : Int.log 2 r = k := by
  have hL1 : ((2 : ℕ) : ℚ) ^ Int.log 2 r ≤ r := Int.zpow_log_le_self (by norm_num) hr
  have hL2 : r < ((2 : ℕ) : ℚ) ^ (Int.log 2 r + 1) := Int.lt_zpow_succ_log_self (by norm_num) r
  have hc1 : k < Int.log 2 r + 1 :=
    (zpow_lt_zpow_iff_right₀ (by norm_num : (1 : ℚ) < ((2 : ℕ) : ℚ))).mp
      (lt_of_le_of_lt h1 hL2)
  have hc2 : Int.log 2 r < k + 1 :=
    (zpow_lt_zpow_iff_right₀ (by norm_num : (1 : ℚ) < ((2 : ℕ) : ℚ))).mp
      (lt_of_le_of_lt hL1 h2)
  omega

lemma roundB64_one : roundB64 (1 : ℚ) = 1 := by
  apply roundB64_eq_self (by norm_num) (n := 2 ^ 52)
  have hlog : Int.log 2 |(1 : ℚ)| = 0 := by
    rw [abs_one]
    apply int_log_eq_of_zpow_le_of_lt (by norm_num) <;> norm_num
  rw [hlog, show max ((0 : ℤ) - 52) (-1074) = -52 from by decide, zpow_neg]
  push_cast
  norm_num

lemma roundB64_hundred : roundB64 (100 : ℚ) = 100 := by
  apply roundB64_eq_self (by norm_num) (n := 100 * 2 ^ 46)
  have hlog : Int.log 2 |(100 : ℚ)| = 6 := by
    rw [show |(100 : ℚ)| = 100 from by norm_num]
    apply int_log_eq_of_zpow_le_of_lt (by norm_num) <;> norm_num
  rw [hlog, show max ((6 : ℤ) - 52) (-1074) = -46 from by decide, zpow_neg]
  push_cast
  norm_num

lemma roundHalfEven_eval_lt {y : ℚ} {n : ℤ} (h1 : (n : ℚ) ≤ y) (h2 : y - (n : ℚ) < 1 / 2) :
    roundHalfEven y = n := by
  have hf : ⌊y⌋ = n := Int.floor_eq_iff.mpr ⟨h1, by linarith⟩
  rw [roundHalfEven, hf, if_pos h2]

lemma roundHalfEven_eval_gt {y : ℚ} {n : ℤ} (h1 : (n : ℚ) ≤ y) (h2 : 1 / 2 < y - (n : ℚ))
    (h3 : y < (n : ℚ) + 1) : roundHalfEven y = n + 1 := by
  have hf : ⌊y⌋ = n := Int.floor_eq_iff.mpr ⟨h1, by linarith⟩
  rw [roundHalfEven, hf, if_neg (not_lt.mpr (le_of_lt h2)), if_pos h2]

lemma roundHalfEven_eval_tie_even {y : ℚ} {n : ℤ} (h1 : y - (n : ℚ) = 1 / 2)
    (h2 : n % 2 = 0) : roundHalfEven y = n := by
  have hf : ⌊y⌋ = n := Int.floor_eq_iff.mpr ⟨by linarith, by linarith⟩
  rw [roundHalfEven, hf, if_neg (by rw [h1]; exact lt_irrefl _),
    if_neg (by rw [h1]; exact lt_irrefl _), if_pos h2]

/-- Evaluation rule for `roundB64` once the binary logarithm and the rounded
scaled mantissa are known. -/
lemma roundB64_eval {x : ℚ} {k n : ℤ} (hx : x ≠ 0) (hlog : Int.log 2 |x| = k)
    (hk : -1074 ≤ k - 52) (hrhe : roundHalfEven (x / 2 ^ (k - 52)) = n) :
    roundB64 x = (n : ℚ) * 2 ^ (k - 52) := by
  rw [roundB64, if_neg hx, hlog, max_eq_left hk, hrhe]

/-- C5 amended: on a non-empty sequence `gc_content` returns the binary64
float evaluation of `round((gc_count / len) * 100, 1)` — which can differ
from the exact decimal rounding of the exact ratio — and that value always
lies in `[0, 100]`, equals `100` when every symbol is G or C
(`gc_count s = s.length`) and equals `0` when no symbol is G or C
(`gc_count s = 0`). -/
theorem gc_content_float_spec (s : List Char) (h : s ≠ []) :
    gc_content s = some (pyRound1 (fmulB64 (fdivB64 (gc_count s) s.length) 100))
    ∧ 0 ≤ pyRound1 (fmulB64 (fdivB64 (gc_count s) s.length) 100)
    ∧ pyRound1 (fmulB64 (fdivB64 (gc_count s) s.length) 100) ≤ 100
    ∧ (gc_count s = s.length →
        pyRound1 (fmulB64 (fdivB64 (gc_count s) s.length) 100) = 100)
    ∧ (gc_count s = 0 →
        pyRound1 (fmulB64 (fdivB64 (gc_count s) s.length) 100) = 0) := by
  have hn : 0 < s.length := List.length_pos.mpr h
  have hq : (0 : ℚ) < (s.length : ℚ) := by exact_mod_cast hn
  have hdnn : (0 : ℚ) ≤ (gc_count s : ℚ) / (s.length : ℚ) :=
    div_nonneg (by positivity) (le_of_lt hq)
  have hd0 : 0 ≤ fdivB64 (gc_count s) s.length := roundB64_nonneg hdnn
  have hd1 : fdivB64 (gc_count s) s.length ≤ 1 := by
    have hc : (gc_count s : ℚ) ≤ (s.length : ℚ) := by
      exact_mod_cast List.countP_le_length _
    have hle : (gc_count s : ℚ) / (s.length : ℚ) ≤ ((1 : ℕ) : ℚ) := by
      rw [Nat.cast_one, div_le_one hq]
      exact hc
    have := roundB64_le_nat hdnn (by norm_num) hle
    rwa [Nat.cast_one] at this
  have hmnn : (0 : ℚ) ≤ fdivB64 (gc_count s) s.length * 100 :=
    mul_nonneg hd0 (by norm_num)
  have hm0 : 0 ≤ fmulB64 (fdivB64 (gc_count s) s.length) 100 := roundB64_nonneg hmnn
  have hm100 : fmulB64 (fdivB64 (gc_count s) s.length) 100 ≤ 100 := by
    have hle : fdivB64 (gc_count s) s.length * 100 ≤ ((100 : ℕ) : ℚ) := by
      push_cast
      nlinarith
    have := roundB64_le_nat hmnn (by norm_num) hle
    rwa [Nat.cast_ofNat] at this
  have hr0 : 0 ≤ pyRound1 (fmulB64 (fdivB64 (gc_count s) s.length) 100) :=
    roundB64_nonneg (round1_nonneg hm0)
  have hr100 : pyRound1 (fmulB64 (fdivB64 (gc_count s) s.length) 100) ≤ 100 := by
    have hle : round1 (fmulB64 (fdivB64 (gc_count s) s.length) 100) ≤ ((100 : ℕ) : ℚ) := by
      rw [Nat.cast_ofNat]
      exact round1_le_100 hm100
    have := roundB64_le_nat (round1_nonneg hm0) (by norm_num) hle
    rwa [Nat.cast_ofNat] at this
  refine ⟨?_, hr0, hr100, ?_, ?_⟩
  · rw [gc_content, if_neg (by omega)]
  · intro hall
    have h1 : fdivB64 (gc_count s) s.length = 1 := by
      rw [fdivB64, hall, div_self (ne_of_gt hq), roundB64_one]
    rw [h1, fmulB64, one_mul, roundB64_hundred, pyRound1, round1_100, roundB64_hundred]
  · intro h0
    have h1 : fdivB64 (gc_count s) s.length = 0 := by
      rw [fdivB64, h0]
      simp [roundB64_zero]
    rw [h1, fmulB64, zero_mul, roundB64_zero, pyRound1, round1_zero, roundB64_zero]

/-- Witness for C5 (amended) at `s = "GT"`. -/
theorem gc_content_float_spec_witness :
    gc_content "GT".toList
        = some (pyRound1 (fmulB64 (fdivB64 (gc_count "GT".toList) ("GT".toList).length) 100))
    ∧ 0 ≤ pyRound1 (fmulB64 (fdivB64 (gc_count "GT".toList) ("GT".toList).length) 100)
    ∧ pyRound1 (fmulB64 (fdivB64 (gc_count "GT".toList) ("GT".toList).length) 100) ≤ 100
    ∧ (gc_count "GT".toList = ("GT".toList).length →
        pyRound1 (fmulB64 (fdivB64 (gc_count "GT".toList) ("GT".toList).length) 100) = 100)
    ∧ (gc_count "GT".toList = 0 →
        pyRound1 (fmulB64 (fdivB64 (gc_count "GT".toList) ("GT".toList).length) 100) = 0) :=
  gc_content_float_spec "GT".toList (by decide)

/-- C5 counterexample: for one `'G'` among 2000 symbols the program's
binary64 value of `(1/2000)*100` is `0.05000000000000000277…`, strictly
above the decimal tie, so `round(·, 1)` returns `0.1`; the exact decimal
rounding of the exact ratio `1/20` is the tie `0.05`, which rounds half to
even giving `0.0`.  Hence `gc_content` does not equal the exact
`round(100 * count / length, 1)`. -/
theorem gc_content_exact_round_cex :
    gc_content ('G' :: List.replicate 1999 'A')
      ≠ some (round1 (100 * (gc_count ('G' :: List.replicate 1999 'A') : ℚ)
          / ((('G' :: List.replicate 1999 'A').length : ℚ)))) := by
  have hcount : gc_count ('G' :: List.replicate 1999 'A') = 1 := by
    rw [gc_count, List.countP_cons, List.countP_replicate]
    norm_num
    decide
  have hlen : ('G' :: List.replicate 1999 'A').length = 2000 := by
    rw [List.length_cons, List.length_replicate]
  have hrhs : round1 (100 * ((1 : ℕ) : ℚ) / ((2000 : ℕ) : ℚ)) = 0 := by
    have hv : 100 * ((1 : ℕ) : ℚ) / ((2000 : ℕ) : ℚ) = 1 / 20 := by
      push_cast
      norm_num
    rw [hv, round1, show (1 / 20 : ℚ) * 10 = 1 / 2 from by norm_num,
      roundHalfEven_eval_tie_even (n := 0) (by norm_num) (by decide)]
    norm_num
  have d1 : fdivB64 1 2000 = 4611686018427388 / 2 ^ 63 := by
    rw [fdivB64, show ((1 : ℕ) : ℚ) / ((2000 : ℕ) : ℚ) = 1 / 2000 from by push_cast; norm_num]
    have hlog : Int.log 2 |(1 / 2000 : ℚ)| = -11 := by
      rw [show |(1 / 2000 : ℚ)| = 1 / 2000 from by norm_num]
      apply int_log_eq_of_zpow_le_of_lt (by norm_num) <;> norm_num
    have hrhe : roundHalfEven ((1 / 2000 : ℚ) / 2 ^ ((-11 : ℤ) - 52)) = 4611686018427388 := by
      have hy : (1 / 2000 : ℚ) / 2 ^ ((-11 : ℤ) - 52) = 9223372036854775808 / 2000 := by
        rw [show (-11 : ℤ) - 52 = -(63 : ℤ) from by decide, zpow_neg]
        norm_num
      rw [hy]
      have hg := roundHalfEven_eval_gt (y := (9223372036854775808 / 2000 : ℚ))
        (n := 4611686018427387) (by norm_num) (by norm_num) (by norm_num)
      omega
    rw [roundB64_eval (by norm_num) hlog (by decide) hrhe,
      show (-11 : ℤ) - 52 = -(63 : ℤ) from by decide, zpow_neg]
    push_cast
    norm_num
  have d2 : fmulB64 (4611686018427388 / 2 ^ 63) 100 = 7205759403792794 / 2 ^ 57 := by
    rw [fmulB64, show (4611686018427388 / 2 ^ 63 : ℚ) * 100
        = 461168601842738800 / 2 ^ 63 from by norm_num]
    have hlog : Int.log 2 |(461168601842738800 / 2 ^ 63 : ℚ)| = -5 := by
      rw [show |(461168601842738800 / 2 ^ 63 : ℚ)| = 461168601842738800 / 2 ^ 63 from by
        norm_num]
      apply int_log_eq_of_zpow_le_of_lt (by norm_num) <;> norm_num
    have hrhe : roundHalfEven ((461168601842738800 / 2 ^ 63 : ℚ) / 2 ^ ((-5 : ℤ) - 52))
        = 7205759403792794 := by
      have hy : (461168601842738800 / 2 ^ 63 : ℚ) / 2 ^ ((-5 : ℤ) - 52)
          = 461168601842738800 / 64 := by
        rw [show (-5 : ℤ) - 52 = -(57 : ℤ) from by decide, zpow_neg]
        norm_num
      rw [hy]
      have hg := roundHalfEven_eval_gt (y := (461168601842738800 / 64 : ℚ))
        (n := 7205759403792793) (by norm_num) (by norm_num) (by norm_num)
      omega
    rw [roundB64_eval (by norm_num) hlog (by decide) hrhe,
      show (-5 : ℤ) - 52 = -(57 : ℤ) from by decide, zpow_neg]
    push_cast
    norm_num
  have d3 : pyRound1 (7205759403792794 / 2 ^ 57) = 3602879701896397 / 2 ^ 55 := by
    rw [pyRound1]
    have hr1 : round1 (7205759403792794 / 2 ^ 57 : ℚ) = 1 / 10 := by
      rw [round1, show (7205759403792794 / 2 ^ 57 : ℚ) * 10
          = 72057594037927940 / 2 ^ 57 from by norm_num]
      have hg := roundHalfEven_eval_gt (y := (72057594037927940 / 2 ^ 57 : ℚ)) (n := 0)
        (by norm_num) (by norm_num) (by norm_num)
      rw [hg]
      norm_num
    rw [hr1]
    have hlog : Int.log 2 |(1 / 10 : ℚ)| = -4 := by
      rw [show |(1 / 10 : ℚ)| = 1 / 10 from by norm_num]
      apply int_log_eq_of_zpow_le_of_lt (by norm_num) <;> norm_num
    have hrhe : roundHalfEven ((1 / 10 : ℚ) / 2 ^ ((-4 : ℤ) - 52)) = 7205759403792794 := by
      have hy : (1 / 10 : ℚ) / 2 ^ ((-4 : ℤ) - 52) = 72057594037927936 / 10 := by
        rw [show (-4 : ℤ) - 52 = -(56 : ℤ) from by decide, zpow_neg]
        norm_num
      rw [hy]
      have hg := roundHalfEven_eval_gt (y := (72057594037927936 / 10 : ℚ))
        (n := 7205759403792793) (by norm_num) (by norm_num) (by norm_num)
      omega
    rw [roundB64_eval (by norm_num) hlog (by decide) hrhe,
      show (-4 : ℤ) - 52 = -(56 : ℤ) from by decide, zpow_neg]
    push_cast
    norm_num
  rw [hcount, hlen, hrhs, gc_content, hcount, hlen, if_neg (by norm_num), d1, d2, d3]
  simp only [ne_eq, Option.some.injEq]
  norm_num

/-- C6: `gc_content` fails with the division-by-zero error (modelled by
`none`) exactly when the sequence is empty; on every non-empty sequence it
returns a value. -/
theorem gc_content_none_iff (s : List Char) : gc_content s = none ↔ s = [] := by
  rw [gc_content]
  by_cases hl : s.length = 0
  · rw [if_pos hl]
    simp [List.length_eq_zero.mp hl]
  · rw [if_neg hl]
    simp [← List.length_eq_zero, hl]

/-- C7: when the input file does not contain exactly two lines,
`process_sequences` raises the input-format error before any computation,
so no output is produced (`Except.error`, never `Except.ok`). -/
theorem process_sequences_wrong_line_count (lines : List (List Char))
    (h : lines.length ≠ 2) :
    process_sequences lines
      = Except.error "Input file must contain exactly two lines." := by
  rw [process_sequences, if_pos h]

/-- Witness for C7 on a three-line input file. -/
theorem process_sequences_wrong_line_count_witness :
    process_sequences ["a ACGT".toList, "b CGTA".toList, "c GTAC".toList]
      = Except.error "Input file must contain exactly two lines." :=
  process_sequences_wrong_line_count _ (by decide)
